import Mathlib

/-!
Verification of `stream.hpp`, a chainable stream/pipeline library over
in-memory sequences. Each pipeline stage walks a half-open iterator range
`[begin, end)`; we embed a stage's range as the list of elements it denotes
and each operation as a function on lists that mirrors the corresponding
C++ loop. The container-adapter insertions (`Collection<...>::insert`) are
modelled explicitly, since `Map`, `Filter` and `collect` are parameterized
by them.
-/

namespace StreamHpp

/-- Ordered-append insertion of the sequence-container adapter:
`Collection<std::vector<T>>::insert` calls `emplace_back`, appending the
value at the back. -/
def vectorInsert (c : List α) (v : α) : List α := c ++ [v]

/-- Deduplicating insertion of the hash-set adapter
(`Collection<std::unordered_set<T>>::insert`): a value already present is
silently dropped. The container is modelled as its list of distinct
elements in first-insertion order. -/
def usetInsert [DecidableEq α] (c : List α) (v : α) : List α :=
  if v ∈ c then c else c ++ [v]

/-- The `Map` stage over a sequence-container source: one forward pass over
the input range, inserting `mapper(*iter)` for each element into a freshly
allocated result sequence (a `std::vector<R>`, by ordered append). -/
def map (f : α → β) (range : List α) : List β :=
  range.foldl (fun acc x => StreamHpp.vectorInsert acc (f x)) []

/-- The `Filter` stage: one forward pass over the input range, appending
each element for which the predicate holds to a freshly allocated sequence
of the same element type. -/
def filter (p : α → Bool) (range : List α) : List α :=
  range.foldl (fun acc x => if p x then StreamHpp.vectorInsert acc x else acc) []

/-- The `Take` stage: its constructor advances an iterator from `begin` by
at most `count` steps, stopping early if `end` is reached; the narrowed
range is `[begin, iter)`. -/
def take : Nat → List α → List α
  | _, [] => []
  | 0, _ :: _ => []
  | n + 1, x :: xs => x :: StreamHpp.take n xs

/-- The `Skip` stage: its constructor advances an iterator from `begin` by
at most `count` steps, stopping early if `end` is reached; the narrowed
range is `[iter, end)`. -/
def skip : Nat → List α → List α
  | _, [] => []
  | 0, l => l
  | n + 1, _ :: xs => StreamHpp.skip n xs

/-- The `TakeWhile` stage: scans from `begin`; the narrowed range ends just
before the first element for which the predicate fails, or at `end` if the
predicate holds throughout. -/
def takeWhile (p : α → Bool) : List α → List α
  | [] => []
  | x :: xs => if p x then x :: StreamHpp.takeWhile p xs else []

/-- The `SkipWhile` stage: scans from `begin`; the narrowed range begins at
the first element for which the predicate fails, or is empty if the
predicate holds throughout. -/
def skipWhile (p : α → Bool) : List α → List α
  | [] => []
  | x :: xs => if p x then StreamHpp.skipWhile p xs else x :: xs

/-- The accumulation loop shared by both `Stream::reduce` overloads:
`for (; iter != end; ++iter) { acc = reducer(acc, *iter); }`. -/
def reduceLoop (f : R → T → R) : R → List T → R
  | acc, [] => acc
  | acc, x :: xs => StreamHpp.reduceLoop f (f acc x) xs

/-- Seeded `Stream::reduce(init, reducer)`: runs the accumulation loop over
the whole range starting from `init`. -/
def reduceFrom (f : R → T → R) (init : R) (range : List T) : R :=
  StreamHpp.reduceLoop f init range

/-- Unseeded `Stream::reduce(reducer)`: `Value acc = *iter++` reads the
first position of the range unconditionally, then the loop folds the
remaining elements. On an empty range that initial dereference is past the
end and yields no defined value, which we model as `none`; the code signals
no error there. -/
def reduce (f : T → T → T) : List T → Option T
  | [] => none
  | x :: xs => some (StreamHpp.reduceLoop f x xs)

/-- `Stream::any`: returns `true` at the first element satisfying the
predicate; `false` once the loop exhausts the range. -/
def any (p : α → Bool) : List α → Bool
  | [] => false
  | x :: xs => if p x then true else StreamHpp.any p xs

/-- `Stream::all`: returns `false` at the first element failing the
predicate; `true` once the loop exhausts the range. -/
def all (p : α → Bool) : List α → Bool
  | [] => true
  | x :: xs => if p x then StreamHpp.all p xs else false

/-- `Stream::collect` into a sequence container: starts from an empty
container and inserts every element of the range in order via the
ordered-append adapter. -/
def collect (range : List α) : List α :=
  range.foldl StreamHpp.vectorInsert []

/-- `Stream::collect` into `std::unordered_set`: starts from an empty
container and inserts every element of the range in order via the
deduplicating adapter. -/
def collectUSet [DecidableEq α] (range : List α) : List α :=
  range.foldl StreamHpp.usetInsert []

/-! ### Basic lemmas relating the stage loops to canonical list functions -/

theorem map_foldl_acc (f : α → β) (l : List α) (acc : List β) :
    l.foldl (fun acc x => StreamHpp.vectorInsert acc (f x)) acc = acc ++ l.map f := by
  induction l generalizing acc with
  | nil => simp
  | cons x xs ih =>
    rw [List.foldl_cons, ih]
    simp [StreamHpp.vectorInsert]

theorem map_eq (f : α → β) (l : List α) : StreamHpp.map f l = l.map f := by
  simpa using StreamHpp.map_foldl_acc f l []

theorem filter_foldl_acc (p : α → Bool) (l : List α) (acc : List α) :
    l.foldl (fun acc x => if p x then StreamHpp.vectorInsert acc x else acc) acc
      = acc ++ l.filter p := by
  induction l generalizing acc with
  | nil => simp
  | cons x xs ih =>
    rw [List.foldl_cons, ih]
    cases h : p x <;> simp [List.filter_cons, h, StreamHpp.vectorInsert]

theorem filter_eq (p : α → Bool) (l : List α) : StreamHpp.filter p l = l.filter p := by
  simpa using StreamHpp.filter_foldl_acc p l []

theorem take_eq (n : Nat) (l : List α) : StreamHpp.take n l = l.take n := by
  induction l generalizing n with
  | nil => cases n <;> rfl
  | cons x xs ih =>
    cases n with
    | zero => rfl
    | succ m => simp [StreamHpp.take, ih]

theorem skip_eq (n : Nat) (l : List α) : StreamHpp.skip n l = l.drop n := by
  induction l generalizing n with
  | nil => cases n <;> rfl
  | cons x xs ih =>
    cases n with
    | zero => rfl
    | succ m => simp [StreamHpp.skip, ih]

theorem takeWhile_eq (p : α → Bool) (l : List α) :
    StreamHpp.takeWhile p l = l.takeWhile p := by
  induction l with
  | nil => rfl
  | cons x xs ih =>
    cases h : p x <;> simp [StreamHpp.takeWhile, List.takeWhile_cons, h, ih]

theorem skipWhile_eq (p : α → Bool) (l : List α) :
    StreamHpp.skipWhile p l = l.dropWhile p := by
  induction l with
  | nil => rfl
  | cons x xs ih =>
    cases h : p x <;> simp [StreamHpp.skipWhile, List.dropWhile_cons, h, ih]

theorem reduceLoop_eq (f : R → T → R) (acc : R) (l : List T) :
    StreamHpp.reduceLoop f acc l = l.foldl f acc := by
  induction l generalizing acc with
  | nil => rfl
  | cons x xs ih => simp [StreamHpp.reduceLoop, ih]

theorem any_eq (p : α → Bool) (l : List α) : StreamHpp.any p l = l.any p := by
  induction l with
  | nil => rfl
  | cons x xs ih => cases h : p x <;> simp [StreamHpp.any, h, ih]

theorem all_eq (p : α → Bool) (l : List α) : StreamHpp.all p l = l.all p := by
  induction l with
  | nil => rfl
  | cons x xs ih => cases h : p x <;> simp [StreamHpp.all, h, ih]

theorem collect_foldl_acc (l acc : List α) :
    l.foldl StreamHpp.vectorInsert acc = acc ++ l := by
  induction l generalizing acc with
  | nil => simp
  | cons x xs ih => simp [StreamHpp.vectorInsert, ih]

theorem collect_eq (l : List α) : StreamHpp.collect l = l := by
  simpa using StreamHpp.collect_foldl_acc l []

theorem mem_usetInsert [DecidableEq α] (acc : List α) (y x : α) :
    x ∈ StreamHpp.usetInsert acc y ↔ x ∈ acc ∨ x = y := by
  unfold StreamHpp.usetInsert
  by_cases h : y ∈ acc
  · simp only [if_pos h]
    constructor
    · exact Or.inl
    · rintro (hx | rfl)
      · exact hx
      · exact h
  · simp [if_neg h]

theorem mem_foldl_usetInsert [DecidableEq α] (l : List α) (acc : List α) (x : α) :
    x ∈ l.foldl StreamHpp.usetInsert acc ↔ x ∈ acc ∨ x ∈ l := by
  induction l generalizing acc with
  | nil => simp
  | cons y ys ih =>
    rw [List.foldl_cons, ih, StreamHpp.mem_usetInsert]
    simp [or_assoc]

theorem nodup_usetInsert [DecidableEq α] (acc : List α) (y : α) (h : acc.Nodup) :
    (StreamHpp.usetInsert acc y).Nodup := by
  unfold StreamHpp.usetInsert
  by_cases hy : y ∈ acc
  · simpa [if_pos hy] using h
  · rw [if_neg hy]
    refine h.append (List.nodup_singleton y) ?_
    intro a ha hay
    rw [List.mem_singleton] at hay
    exact hy (hay ▸ ha)

theorem nodup_foldl_usetInsert [DecidableEq α] (l : List α) (acc : List α)
    (h : acc.Nodup) : (l.foldl StreamHpp.usetInsert acc).Nodup := by
  induction l generalizing acc with
  | nil => exact h
  | cons y ys ih => exact ih _ (StreamHpp.nodup_usetInsert acc y h)

theorem take_min (n : Nat) (l : List α) : l.take (min n l.length) = l.take n := by
  rcases Nat.le_total n l.length with h | h
  · rw [Nat.min_eq_left h]
  · rw [Nat.min_eq_right h, List.take_length, List.take_of_length_le h]

theorem drop_min (n : Nat) (l : List α) : l.drop (min n l.length) = l.drop n := by
  rcases Nat.le_total n l.length with h | h
  · rw [Nat.min_eq_left h]
  · rw [Nat.min_eq_right h, List.drop_length, List.drop_eq_nil_of_le h]

/-! ### The claims -/

/-- Claim C1: the unseeded `reduce(reducer)` on an empty range yields no
value (the code dereferences a non-existent first element, modelled by
`none`, rather than signalling the EmptySequence failure the specification
requires), while on a non-empty range it returns the left-to-right fold of
the range using the first element as the seed. -/
theorem claim_C1_reduce_unseeded :
    StreamHpp.reduce (fun a b : Int => a + b) [] = none ∧
    ∀ (f : Int → Int → Int) (x : Int) (xs : List Int),
      StreamHpp.reduce f (x :: xs) = some (xs.foldl f x) := by
  refine ⟨rfl, fun f x xs => ?_⟩
  simp [StreamHpp.reduce, StreamHpp.reduceLoop_eq]

/-- Claim C2: for a sequence-container source, `map(f)` materializes (and
`collect` returns) a sequence of the same length as the input whose `i`-th
element is `f` of the input's `i`-th element: order is preserved, inserted
by ordered append, with no deduplication. -/
theorem claim_C2_map (α β : Type) (f : α → β) (l : List α) :
    StreamHpp.collect (StreamHpp.map f l) = StreamHpp.map f l ∧
    (StreamHpp.map f l).length = l.length ∧
    ∀ i : Nat, (StreamHpp.map f l)[i]? = (l[i]?).map f := by
  refine ⟨StreamHpp.collect_eq _, ?_, fun i => ?_⟩
  · simp [StreamHpp.map_eq]
  · simp [StreamHpp.map_eq]

/-- Claim C3: `filter(p)` materializes exactly the elements of the input
satisfying `p`, in the same relative order (it agrees with the canonical
filter, every kept element satisfies `p`, the result is a sublist of the
input, and its length is the count of satisfying elements). -/
theorem claim_C3_filter (α : Type) (p : α → Bool) (l : List α) :
    StreamHpp.filter p l = l.filter p ∧
    (StreamHpp.filter p l).all p = true ∧
    (StreamHpp.filter p l).Sublist l ∧
    (StreamHpp.filter p l).length = l.countP p := by
  refine ⟨StreamHpp.filter_eq p l, ?_, ?_, ?_⟩
  · rw [StreamHpp.filter_eq]
    simp [List.all_eq_true, List.mem_filter]
  · rw [StreamHpp.filter_eq]
    exact List.filter_sublist l
  · rw [StreamHpp.filter_eq]
    exact (List.countP_eq_length_filter p l).symm

/-- Claim C4: `takeWhile(p)` yields the longest prefix all of whose
elements satisfy `p`, `skipWhile(p)` yields the complementary remainder
starting at the first element failing `p` (empty if `p` holds throughout),
and their concatenation reconstructs the input exactly. -/
theorem claim_C4_takeWhile_skipWhile (α : Type) (p : α → Bool) (l : List α) :
    StreamHpp.takeWhile p l ++ StreamHpp.skipWhile p l = l ∧
    (StreamHpp.takeWhile p l).all p = true ∧
    ((StreamHpp.skipWhile p l).head?.all fun y => !p y) = true := by
  induction l with
  | nil => exact ⟨rfl, rfl, rfl⟩
  | cons x xs ih =>
    cases h : p x with
    | true =>
      refine ⟨?_, ?_, ?_⟩
      · simp [StreamHpp.takeWhile, StreamHpp.skipWhile, h, ih.1]
      · simp [StreamHpp.takeWhile, h, ih.2.1]
      · simpa [StreamHpp.skipWhile, h] using ih.2.2
    | false =>
      refine ⟨?_, ?_, ?_⟩
      · simp [StreamHpp.takeWhile, StreamHpp.skipWhile, h]
      · simp [StreamHpp.takeWhile, h]
      · simp [StreamHpp.skipWhile, h]

/-- Claim C5: `take(n)` narrows to the first `min(n, length)` elements and
`skip(n)` to the elements after the first `min(n, length)`; in particular
`take(S, 0)` and `skip(S, length(S))` are empty, `take(S, n)` for
`n ≥ length(S)` is `S` unchanged, and `skip(S, 0)` is `S` unchanged. -/
theorem claim_C5_take_skip (α : Type) (n m : Nat) (l : List α) :
    StreamHpp.take n l = l.take (min n l.length) ∧
    StreamHpp.skip n l = l.drop (min n l.length) ∧
    StreamHpp.take 0 l = [] ∧
    StreamHpp.skip l.length l = [] ∧
    StreamHpp.take (l.length + m) l = l ∧
    StreamHpp.skip 0 l = l := by
  refine ⟨?_, ?_, ?_, ?_, ?_, ?_⟩
  · rw [StreamHpp.take_eq, StreamHpp.take_min]
  · rw [StreamHpp.skip_eq, StreamHpp.drop_min]
  · rw [StreamHpp.take_eq, List.take_zero]
  · rw [StreamHpp.skip_eq, List.drop_length]
  · rw [StreamHpp.take_eq]
    exact List.take_of_length_le (Nat.le_add_right _ _)
  · rw [StreamHpp.skip_eq, List.drop_zero]

/-- Claim C6: the seeded `reduce(seed, reducer)` returns the left-to-right
fold of the range starting from `seed`; on an empty range it returns the
seed unchanged (it never fails). -/
theorem claim_C6_reduce_seeded (T R : Type) (f : R → T → R) (init : R) (l : List T) :
    StreamHpp.reduceFrom f init l = l.foldl f init ∧
    StreamHpp.reduceFrom f init [] = init :=
  ⟨StreamHpp.reduceLoop_eq f init l, rfl⟩

/-- Claim C7: collecting into a deduplicating (set-like) container inserts
every element in range order with duplicates silently dropped: the result
has no duplicate and contains exactly the elements of the range; in
particular collecting `map([1,1,2,2,3], identity)` into a unique container
yields exactly the elements 1, 2, 3. -/
theorem claim_C7_collect_unique :
    (∀ l : List Int, (StreamHpp.collectUSet l).Nodup ∧
      ∀ x : Int, x ∈ StreamHpp.collectUSet l ↔ x ∈ l) ∧
    StreamHpp.collectUSet (StreamHpp.map (fun x => x) ([1, 1, 2, 2, 3] : List Int))
      = [1, 2, 3] := by
  refine ⟨fun l => ⟨?_, fun x => ?_⟩, by decide⟩
  · exact StreamHpp.nodup_foldl_usetInsert l [] List.nodup_nil
  · simpa using StreamHpp.mem_foldl_usetInsert l [] x

/-- Claim C8: `any(p)` returns true iff some element of the range satisfies
`p` (false on an empty range) and `all(p)` returns true iff every element
satisfies `p` (true, vacuously, on an empty range). -/
theorem claim_C8_any_all (α : Type) (p : α → Bool) (l : List α) :
    (StreamHpp.any p l = true ↔ ∃ x ∈ l, p x = true) ∧
    (StreamHpp.all p l = true ↔ ∀ x ∈ l, p x = true) ∧
    StreamHpp.any p [] = false ∧
    StreamHpp.all p [] = true := by
  refine ⟨?_, ?_, rfl, rfl⟩
  · rw [StreamHpp.any_eq]
    simp [List.any_eq_true]
  · rw [StreamHpp.all_eq]
    simp [List.all_eq_true]

/-- Claim C9: the pipeline `[1..10] → filter(even) → map(square) → take(2)
→ collect(ordered sequence)` yields exactly `[4, 16]`. -/
theorem claim_C9_pipeline :
    StreamHpp.collect (StreamHpp.take 2 (StreamHpp.map (fun x => x * x)
      (StreamHpp.filter (fun x => x % 2 == 0)
        ([1, 2, 3, 4, 5, 6, 7, 8, 9, 10] : List Int)))) = [4, 16] := by
  decide

/-- Claim C10: for every sequence and count, the range produced by
`take(n)` concatenated with the range produced by `skip(n)` reconstructs
the input exactly: `take(n)` is a prefix and `skip(n)` the complementary
suffix. -/
theorem claim_C10_take_skip_append (α : Type) (n : Nat) (l : List α) :
    StreamHpp.take n l ++ StreamHpp.skip n l = l := by
  rw [StreamHpp.take_eq, StreamHpp.skip_eq]
  exact List.take_append_drop n l

end StreamHpp
